import Mathlib

/-!
Verification of the `go-du` directory-tree size accumulator
(`app/dirtree/dirtree.go`) against its specification.

The Go code is shallowly embedded:

* `Int` stands for Go `int64`; Go's `/` on `int64` truncates toward zero,
  which is `Int.tdiv` (64-bit overflow is unreachable for the byte counts
  the hypotheses of the theorems below allow and is not modelled).
* The filesystem is an explicit inductive value `FSTree` describing, for
  the root path and each entry below it, what the abstract capabilities
  `os.Stat`, `os.ReadDir`, `DirEntry.Info` and `syscall.Statfs` would
  return (`none` = the call fails).
* A Go `panic` is modelled by `Option.none`; the stderr logger `errLog`
  is modelled by an explicit list of `Diag` messages returned next to the
  result.
* `path/filepath.Clean` and `path/filepath.Join` (Go standard library,
  unix rules) are modelled by `clean` and `join` below via the standard
  segment-stack formulation of lexical path cleaning; `filepath.IsAbs`
  on unix is "starts with a slash".
-/

namespace GoDu

/-- Embedding of the method `calcSize` of `dirtree.go` (lines 128-131):

    allocSize := (1 + (size-1)/dt.blockSize) * dt.blockSize
    return 1 + (allocSize-1)/dt.unitSize

The receiver's fields `dt.blockSize` and `dt.unitSize` are passed
explicitly; `Int.tdiv` is Go's truncated `int64` division. -/
def calcSize (blockSize unitSize size : Int) : Int :=
  let allocSize := (1 + Int.tdiv (size - 1) blockSize) * blockSize
  1 + Int.tdiv (allocSize - 1) unitSize

/-- Mathematical ceiling division `⌈a / b⌉` for a positive divisor `b`:
for `0 < b`, euclidean division `Int.ediv` rounds toward negative
infinity, so negating twice rounds up.  This is the spec-side notion of
"ceiling division" used to state the size-conversion claims. -/
def ceilDiv (a b : Int) : Int := -((-a) / b)

/-- Splits a character list at every slash (helper for `clean`). -/
def splitSlash : List Char → List (List Char)
  | [] => [[]]
  | c :: cs =>
    if c = '/' then [] :: splitSlash cs
    else
      match splitSlash cs with
      | [] => [[c]]
      | seg :: rest => (c :: seg) :: rest

/-- One step of lexical path cleaning: drop empty and `.` segments, let
`..` pop the last real segment (dropped entirely at the root of a rooted
path, accumulated at the front of an unrooted path). -/
def cleanStep (rooted : Bool) (stack : List (List Char)) (seg : List Char) : List (List Char) :=
  if seg = [] ∨ seg = ['.'] then stack
  else if seg = ['.', '.'] then
    match stack with
    | [] => if rooted then [] else [['.', '.']]
    | top :: rest => if top = ['.', '.'] then seg :: stack else rest
  else seg :: stack

/-- Rejoins cleaned segments with slashes (helper for `clean`). -/
def joinSegs : List (List Char) → List Char
  | [] => []
  | [s] => s
  | s :: rest => s ++ '/' :: joinSegs rest

/-- Model of Go `path/filepath.Clean` (unix): purely lexical cleaning.
The empty path cleans to `.`; otherwise the path is split at slashes,
the segments are processed by `cleanStep`, and the result is rejoined,
keeping a leading slash for rooted paths and falling back to `.` (or
`/`) when nothing remains.  Equivalent to Go's lazybuf implementation. -/
def clean (path : String) : String :=
  match path.data with
  | [] => "."
  | c :: cs =>
    let rooted := c = '/'
    let segs := ((splitSlash (c :: cs)).foldl (cleanStep rooted) []).reverse
    match segs with
    | [] => if rooted then "/" else "."
    | s :: rest => if rooted then ⟨'/' :: joinSegs (s :: rest)⟩ else ⟨joinSegs (s :: rest)⟩

/-- Model of Go `path/filepath.Join` for two arguments: the empty
elements are dropped from the front, the rest is slash-joined and
cleaned; joining two empty strings gives the empty string. -/
def join (dir name : String) : String :=
  if dir = "" then (if name = "" then "" else clean name)
  else clean (dir ++ "/" ++ name)

/-- Embedding of `fixPath` of `dirtree.go` (lines 147-155).  Go checks
`filepath.IsAbs(path)` — on unix, "first byte is a slash", false for the
empty string — then reads `path[0]`, which panics (`none`) on the empty
string; a leading `.` is kept, anything else is prefixed with `./`. -/
def fixPath (path : String) : Option String :=
  match path.data with
  | [] => none
  | c :: _ =>
    if c = '/' then some path
    else if c = '.' then some path
    else some ("./" ++ path)

/-- Total companion of `fixPath`, agreeing with it whenever it does not
panic (used only to state what `fixPath` returns on non-empty input). -/
def fixPathD (path : String) : String := (fixPath path).getD path

/-- Embedding of the struct `FileInfo` of `dirtree.go` (lines 17-20). -/
structure FileInfo where
  path : String
  size : Int

/-- Embedding of the struct `DirTree` of `dirtree.go` (lines 23-39),
with the fields in source order: `path`, `size`, `files`, `subdirs`,
`unitSize`, `blockSize`. -/
inductive DirTree where
  | mk : String → Int → List FileInfo → List DirTree → Int → Int → DirTree

def DirTree.path : DirTree → String
  | .mk p _ _ _ _ _ => p

def DirTree.size : DirTree → Int
  | .mk _ s _ _ _ _ => s

def DirTree.files : DirTree → List FileInfo
  | .mk _ _ fls _ _ _ => fls

def DirTree.subdirs : DirTree → List DirTree
  | .mk _ _ _ sds _ _ => sds

def DirTree.unitSize : DirTree → Int
  | .mk _ _ _ _ u _ => u

def DirTree.blockSize : DirTree → Int
  | .mk _ _ _ _ _ bs => bs

/-- What `os.Stat` reports on success: whether the object is a directory
and its size in bytes. -/
structure StatInfo where
  isDir : Bool
  size : Int

/-- What `os.ReadDir` reports for one entry: its base name, its
`DirEntry.IsDir` flag, and the result of `DirEntry.Info` (`none` when
that call fails, in which case `buildDirTree` skips the entry). -/
structure EntryInfo where
  name : String
  isDir : Bool
  size : Option Int

/-- An abstract filesystem as seen from one path: the result of
`os.Stat` on the path, the result of `os.ReadDir` (each entry paired
with the filesystem below it, entered when the entry is a directory),
and the result of the `syscall.Statfs` block-size probe.  `none` means
the corresponding call fails. -/
inductive FSTree where
  | mk : Option StatInfo → Option (List (EntryInfo × FSTree)) → Option Int → FSTree

/-- A message written to the diagnostic channel (`errLog`, stderr). -/
inductive Diag where
  | statErr : String → Diag
  | readDirErr : String → Diag
  | infoErr : String → String → Diag

/-- Embedding of `New` together with `buildDirTree` of `dirtree.go`
(lines 42-95).  `New` fixes the path and unit size, resolves the block
size (probe result, falling back to 4096 on probe failure) and builds
the tree.  `buildDirTree` stats the path; on a stat failure Go logs the
error and then calls `dtInfo.Size()` on the nil `FileInfo`, a nil
dereference panic — modelled as `none`.  Otherwise the node's own
allocation is `calcSize` of the stat size; for a non-directory the node
is complete.  For a directory, a `ReadDir` failure is logged and the
entry loop runs over nothing; each entry whose `Info` fails is logged
and skipped; each subdirectory is built by a recursive `New` (which
panics propagate from); each file contributes `calcSize` of its size and
a `FileInfo` whose path is `filepath.Join(dt.path, name)`. -/
def New (path : String) (unitSize : Int) : FSTree → List Diag × Option DirTree
  | .mk statR entriesR bsizeR =>
    let blockSize := bsizeR.getD 4096
    match statR with
    | none => ([.statErr path], none)
    | some st =>
      let size0 := calcSize blockSize unitSize st.size
      if st.isDir then
        match entriesR with
        | none => ([.readDirErr path], some (.mk path size0 [] [] unitSize blockSize))
        | some es =>
          match buildEntries path unitSize blockSize es with
          | (ds, none) => (ds, none)
          | (ds, some (extra, fls, sds)) =>
            (ds, some (.mk path (size0 + extra) fls sds unitSize blockSize))
      else ([], some (.mk path size0 [] [] unitSize blockSize))
where
  /-- The entry loop of `buildDirTree` (lines 76-94), returning the
  total size contributed by the entries together with the accumulated
  `files` and `subdirs` lists, or `none` when a recursive `New`
  panicked. -/
  buildEntries (path : String) (unitSize blockSize : Int) :
      List (EntryInfo × FSTree) → List Diag × Option (Int × List FileInfo × List DirTree)
  | [] => ([], some (0, [], []))
  | (e, sub) :: rest =>
    match e.size with
    | none =>
      match buildEntries path unitSize blockSize rest with
      | (ds, r) => (.infoErr path e.name :: ds, r)
    | some isz =>
      if e.isDir then
        match New (join path e.name) unitSize sub with
        | (ds, none) => (ds, none)
        | (ds, some sdt) =>
          match buildEntries path unitSize blockSize rest with
          | (ds2, none) => (ds ++ ds2, none)
          | (ds2, some (sz, fls, sds)) => (ds ++ ds2, some (sdt.size + sz, fls, sdt :: sds))
      else
        match buildEntries path unitSize blockSize rest with
        | (ds, none) => (ds, none)
        | (ds, some (sz, fls, sds)) =>
          (ds, some (calcSize blockSize unitSize isz + sz,
                     ⟨join path e.name, calcSize blockSize unitSize isz⟩ :: fls, sds))

/-- The file loop of `PrintDirTree` (lines 107-109): one line per
`FileInfo`, in stored order; `none` when `fixPath` panics on an empty
file path.  The line template `fmt.Sprintf(outFormat, size, path)` is
abstracted as the function `f`. -/
def fileLines (f : Int → String → String) : List FileInfo → Option (List String)
  | [] => some []
  | fi :: rest =>
    match fixPath fi.path with
    | none => none
    | some p =>
      match fileLines f rest with
      | none => none
      | some out => some (f fi.size p :: out)

/-- Embedding of `PrintDirTree` of `dirtree.go` (lines 103-119): when
`countFiles` is set the node's own file lines come first; when
`summarise` is not set the subdirectories' outputs follow, in stored
order; the node's own line, `fixPath(filepath.Clean(dt.path))`, is
appended last.  `none` models a `fixPath` panic. -/
def printDirTree (f : Int → String → String) (countFiles summarise : Bool) :
    DirTree → Option (List String)
  | .mk path size files subdirs _ _ =>
    match (if countFiles then fileLines f files else some []) with
    | none => none
    | some fl =>
      match (if summarise then some [] else printList f countFiles summarise subdirs) with
      | none => none
      | some cl =>
        match fixPath (clean path) with
        | none => none
        | some p => some (fl ++ (cl ++ [f size p]))
where
  /-- The subdirectory loop of `PrintDirTree` (lines 112-114). -/
  printList (f : Int → String → String) (countFiles summarise : Bool) :
      List DirTree → Option (List String)
  | [] => some []
  | d :: ds =>
    match printDirTree f countFiles summarise d with
    | none => none
    | some out =>
      match printList f countFiles summarise ds with
      | none => none
      | some outs => some (out ++ outs)

/-- Total companion of `printDirTree`, agreeing with it on every tree
whose file paths are non-empty (proved below): files first, then the
subdirectories' outputs, then the node's own line. -/
def printTotal (f : Int → String → String) (countFiles summarise : Bool) :
    DirTree → List String
  | .mk path size files subdirs _ _ =>
    (if countFiles then files.map (fun fi => f fi.size (fixPathD fi.path)) else [])
      ++ ((if summarise then [] else printTotalList f countFiles summarise subdirs)
      ++ [f size (fixPathD (clean path))])
where
  /-- Concatenation of the total outputs of a list of subtrees. -/
  printTotalList (f : Int → String → String) (countFiles summarise : Bool) :
      List DirTree → List String
  | [] => []
  | d :: ds => printTotal f countFiles summarise d ++ printTotalList f countFiles summarise ds

/-- Sum of the `size` fields of a list of `FileInfo`. -/
def sumSizesF : List FileInfo → Int
  | [] => 0
  | fi :: rest => fi.size + sumSizesF rest

/-- Sum of the `size` fields of a list of `DirTree`. -/
def sumSizesD : List DirTree → Int
  | [] => 0
  | d :: rest => d.size + sumSizesD rest

/-- The accumulation invariant of the spec: at every node, `size` is the
node's own allocation-rounded size (i.e. `calcSize` of some byte count,
under the node's own block and unit sizes) plus the sizes of its direct
file entries plus the sizes of its direct subdirectories. -/
inductive SizeInv : DirTree → Prop where
  | intro {path size files subdirs u bs : _} :
      (∃ own : Int, size = calcSize bs u own + sumSizesF files + sumSizesD subdirs) →
      (∀ d ∈ subdirs, SizeInv d) →
      SizeInv (.mk path size files subdirs u bs)

/-- Every file path stored anywhere in the tree is non-empty. -/
inductive PathsOK : DirTree → Prop where
  | intro {path size files subdirs u bs : _} :
      (∀ fi ∈ files, fi.path ≠ "") →
      (∀ d ∈ subdirs, PathsOK d) →
      PathsOK (.mk path size files subdirs u bs)

/-- Every directory entry name reported anywhere in the filesystem is
non-empty (true of every real filesystem). -/
inductive NamesOK : FSTree → Prop where
  | intro {statR : Option StatInfo} {entriesR : Option (List (EntryInfo × FSTree))}
      {bsizeR : Option Int} :
      (∀ es, entriesR = some es → ∀ q ∈ es, q.1.name ≠ "") →
      (∀ es, entriesR = some es → ∀ q ∈ es, NamesOK q.2) →
      NamesOK (.mk statR entriesR bsizeR)

/-- Every size the filesystem reports is non-negative and every reported
block size is at least 2, recursively. -/
inductive SizesOK : FSTree → Prop where
  | intro {statR : Option StatInfo} {entriesR : Option (List (EntryInfo × FSTree))}
      {bsizeR : Option Int} :
      (∀ st, statR = some st → 0 ≤ st.size) →
      (∀ b, bsizeR = some b → 2 ≤ b) →
      (∀ es, entriesR = some es → ∀ q ∈ es, ∀ n, q.1.size = some n → 0 ≤ n) →
      (∀ es, entriesR = some es → ∀ q ∈ es, SizesOK q.2) →
      SizesOK (.mk statR entriesR bsizeR)

/-- Every node size and every file-entry size in the tree is strictly
positive. -/
inductive AllPos : DirTree → Prop where
  | intro {path size files subdirs u bs : _} :
      1 ≤ size →
      (∀ fi ∈ files, 1 ≤ fi.size) →
      (∀ d ∈ subdirs, AllPos d) →
      AllPos (.mk path size files subdirs u bs)

/-- A concrete model of the repository's `testdata` test fixture: a
4096-byte directory holding the 3456-byte file `under_4k.txt`, on a
filesystem with 4096-byte blocks. -/
def fsExample : FSTree :=
  FSTree.mk (some ⟨true, 4096⟩)
    (some [(⟨"under_4k.txt", false, some 3456⟩, FSTree.mk none none none)])
    (some 4096)

/-- The tree `New` builds from `fsExample` at unit size 512 (the
repository's "Single file" test expects exactly the sizes 16 and 8). -/
def treeExample : DirTree :=
  DirTree.mk ("./testdata") 16 [⟨"testdata/under_4k.txt", 8⟩] [] 512 4096

/-! ## Arithmetic of the size converter -/

/-- Unfolding equation for `calcSize`. -/
theorem calcSize_def (k u b : Int) :
    calcSize k u b = 1 + Int.tdiv ((1 + Int.tdiv (b - 1) k) * k - 1) u := rfl

/-- The ceiling `⌈a / k⌉` equals one more than the floor of `(a-1)/k`,
for every integer `a` and positive `k`. -/
theorem ceilDiv_eq (a k : Int) (hk : 1 ≤ k) : ceilDiv a k = (a - 1) / k + 1 := by
  have hk0 : k ≠ 0 := by omega
  have hdm := Int.ediv_add_emod (a - 1) k
  have hr0 : 0 ≤ (a - 1) % k := Int.emod_nonneg (a - 1) hk0
  have hr1 : (a - 1) % k < k := Int.emod_lt_of_pos (a - 1) (by omega)
  have key : -a = (k - 1 - (a - 1) % k) + (-((a - 1) / k) - 1) * k := by
    linear_combination hdm
  have h2 : (-a) / k = (k - 1 - (a - 1) % k) / k + (-((a - 1) / k) - 1) := by
    rw [key]; exact Int.add_mul_ediv_right _ _ hk0
  have h3 : (k - 1 - (a - 1) % k) / k = 0 := Int.ediv_eq_zero_of_lt (by omega) (by omega)
  show -((-a) / k) = (a - 1) / k + 1
  rw [h2, h3]; ring

/-- Truncated division of a small negative numerator is zero. -/
theorem tdiv_neg_small (y k : Int) (h0 : 0 ≤ y) (h1 : y < k) : Int.tdiv (-y) k = 0 := by
  rw [Int.neg_tdiv, Int.tdiv_eq_zero_of_lt h0 h1, neg_zero]

/-- Go's `1 + (a-1)/k` (truncated division) is the ceiling `⌈a / k⌉`
whenever `1 ≤ a` and `1 ≤ k`. -/
theorem one_add_tdiv (a k : Int) (ha : 1 ≤ a) (hk : 1 ≤ k) :
    1 + Int.tdiv (a - 1) k = ceilDiv a k := by
  rw [Int.tdiv_eq_ediv (by omega) (by omega), ceilDiv_eq a k hk]; omega

/-- The ceiling of a positive number by a positive divisor is positive. -/
theorem ceilDiv_pos (a k : Int) (ha : 1 ≤ a) (hk : 1 ≤ k) : 1 ≤ ceilDiv a k := by
  rw [ceilDiv_eq a k hk]
  have := Int.ediv_nonneg (show (0:Int) ≤ a - 1 by omega) (show (0:Int) ≤ k by omega)
  omega

/-- For positive byte counts, `calcSize` computes the double ceiling of
the spec: round up to a whole number of blocks, then round the
allocation up to a whole number of display units. -/
theorem calcSize_eq_ceil_of_pos (k u b : Int) (hb : 1 ≤ b) (hk : 1 ≤ k) (hu : 1 ≤ u) :
    calcSize k u b = ceilDiv (ceilDiv b k * k) u := by
  rw [calcSize_def, one_add_tdiv b k hb hk]
  have h1 : 1 ≤ ceilDiv b k := ceilDiv_pos b k hb hk
  have h2 : (1:Int) * 1 ≤ ceilDiv b k * k := mul_le_mul h1 hk (by omega) (by omega)
  exact one_add_tdiv (ceilDiv b k * k) u (by omega) hu

/-- Behaviour of `calcSize` on a byte count of zero, away from the
degenerate combination `blockSize = unitSize = 1` (where truncation
toward zero makes the code return `0`). -/
theorem calcSize_zero_aux (k u : Int) (hk : 1 ≤ k) (hu : 1 ≤ u) (h : ¬(k = 1 ∧ u = 1)) :
    calcSize k u 0 = ceilDiv k u ∧ 1 ≤ calcSize k u 0 := by
  rcases lt_or_ge k 2 with hk2 | hk2
  · have hk1 : k = 1 := by omega
    have hu2 : 2 ≤ u := by
      rcases eq_or_lt_of_le hu with h1 | h1
      · exact absurd ⟨hk1, h1.symm⟩ h
      · omega
    subst hk1
    have e1 : Int.tdiv (0 - 1 : Int) 1 = -1 := by decide
    rw [calcSize_def, e1]
    have e2 : (1 + (-1 : Int)) * 1 - 1 = -1 := by norm_num
    rw [e2]
    have e3 : Int.tdiv (-1) u = 0 := tdiv_neg_small 1 u (by omega) (by omega)
    rw [e3]
    constructor
    · rw [ceilDiv_eq 1 u hu]; simp
    · omega
  · have e1 : Int.tdiv (0 - 1 : Int) k = 0 := by
      have h0 : (0 - 1 : Int) = -1 := by norm_num
      rw [h0]; exact tdiv_neg_small 1 k (by omega) (by omega)
    rw [calcSize_def, e1]
    have e2 : (1 + (0:Int)) * k - 1 = k - 1 := by ring
    rw [e2]
    constructor
    · exact one_add_tdiv k u (by omega) hu
    · rw [one_add_tdiv k u (by omega) hu]; exact ceilDiv_pos k u (by omega) hu

/-- `calcSize` is positive for non-negative byte counts, except at the
degenerate triple `blockSize = unitSize = 1`, byte count `0`. -/
theorem calcSize_pos_aux (k u b : Int) (hk : 1 ≤ k) (hu : 1 ≤ u) (hb : 0 ≤ b)
    (h : ¬(k = 1 ∧ u = 1 ∧ b = 0)) : 1 ≤ calcSize k u b := by
  rcases eq_or_lt_of_le hb with hb0 | hb1
  · rw [← hb0]
    refine (calcSize_zero_aux k u hk hu ?_).2
    intro hc
    exact h ⟨hc.1, hc.2, hb0.symm⟩
  · have hb1' : 1 ≤ b := by omega
    rw [calcSize_eq_ceil_of_pos k u b hb1' hk hu]
    have h1 := ceilDiv_pos b k hb1' hk
    have h2 : (1:Int) * 1 ≤ ceilDiv b k * k := mul_le_mul h1 hk (by omega) (by omega)
    exact ceilDiv_pos _ u (by omega) hu

/-- Negative byte counts of magnitude below the block size are treated
exactly like a byte count of zero: no error, same result. -/
theorem calcSize_neg_aux (k u b : Int) (hk : 1 ≤ k) (_hu : 1 ≤ u)
    (hlo : 2 - k ≤ b) (hhi : b ≤ -1) : calcSize k u b = calcSize k u 0 := by
  have hk3 : 3 ≤ k := by omega
  have e1 : Int.tdiv (b - 1) k = 0 := by
    have h0 : b - 1 = -(1 - b) := by ring
    rw [h0]; exact tdiv_neg_small (1 - b) k (by omega) (by omega)
  have e2 : Int.tdiv (0 - 1 : Int) k = 0 := by
    have h0 : (0 - 1 : Int) = -1 := by norm_num
    rw [h0]; exact tdiv_neg_small 1 k (by omega) (by omega)
  rw [calcSize_def, calcSize_def, e1, e2]

/-! ## Claims about the size converter -/

/-- C2, counterexample: the claimed identity
`convert(b,k,u) = ⌈⌈b/k⌉·k / u⌉` fails at `b = 0` (with block size 4096
and unit size 512): the mathematical formula gives `0`, the code
gives `8`. -/
theorem calcSize_formula_cex :
    calcSize 4096 512 0 ≠ ceilDiv (ceilDiv 0 4096 * 4096) 512 := by decide

/-- C2 (amended): for every byte count `b ≥ 1` and positive block and
unit sizes, `calcSize` equals the double-ceiling formula
`⌈⌈b/k⌉·k / u⌉`; at `b = 0` the code instead returns the value for one
full block (see the counterexample and C4). -/
theorem calcSize_eq_ceil_formula (b k u : Int) (hb : 1 ≤ b) (hk : 1 ≤ k) (hu : 1 ≤ u) :
    calcSize k u b = ceilDiv (ceilDiv b k * k) u :=
  calcSize_eq_ceil_of_pos k u b hb hk hu

/-- C2, witness: block size 4096, unit size 512, byte count 5678. -/
theorem calcSize_eq_ceil_formula_witness :
    calcSize 4096 512 5678 = ceilDiv (ceilDiv 5678 4096 * 4096) 512 :=
  calcSize_eq_ceil_formula 5678 4096 512 (by decide) (by decide) (by decide)

/-- C4, counterexample: at block size 1 and unit size 1 the code
converts byte count 0 to `0`, not to `⌈k/u⌉ = 1` — Go's truncated
division sends `(0-1)/1` to `-1`, so the allocation becomes `0`. -/
theorem calcSize_zero_cex : calcSize 1 1 0 = 0 ∧ ceilDiv 1 1 = 1 := by decide

/-- C4 (amended): for every positive block size `k` and unit size `u`
except the degenerate combination `k = u = 1`, converting byte count 0
yields exactly `⌈k/u⌉` display units, which is never zero. -/
theorem calcSize_zero_eq (k u : Int) (hk : 1 ≤ k) (hu : 1 ≤ u) (h : ¬(k = 1 ∧ u = 1)) :
    calcSize k u 0 = ceilDiv k u ∧ 1 ≤ calcSize k u 0 :=
  calcSize_zero_aux k u hk hu h

/-- C4, witness: block size 4096, unit size 512. -/
theorem calcSize_zero_eq_witness :
    calcSize 4096 512 0 = ceilDiv 4096 512 ∧ 1 ≤ calcSize 4096 512 0 :=
  calcSize_zero_eq 4096 512 (by decide) (by decide) (by decide)

/-- C5, counterexample: for the negative byte count `-5` the converter
does not fail — `calcSize` has no error result at all — and returns the
numeric value `8` (block size 4096, unit size 512). -/
theorem calcSize_neg_cex : calcSize 4096 512 (-5) = 8 := by decide

/-- C5 (amended): negative byte counts are silently accepted, never
reported as an invalid-argument condition: every negative byte count of
magnitude below the block size produces the same numeric value as byte
count 0. -/
theorem calcSize_neg_no_error (k u b : Int) (hk : 1 ≤ k) (hu : 1 ≤ u)
    (hlo : 2 - k ≤ b) (hhi : b ≤ -1) : calcSize k u b = calcSize k u 0 :=
  calcSize_neg_aux k u b hk hu hlo hhi

/-- C5, witness: byte count `-5`, block size 4096, unit size 512. -/
theorem calcSize_neg_no_error_witness :
    calcSize 4096 512 (-5) = calcSize 4096 512 0 :=
  calcSize_neg_no_error 4096 512 (-5) (by decide) (by decide) (by decide) (by decide)

/-! ## Path normalisation -/

/-- A string whose character list is non-nil is not the empty string. -/
theorem string_ne_of_data {s : String} (h : s.data ≠ []) : s ≠ "" := by
  intro he; subst he; exact h rfl

/-- A non-empty string has a non-nil character list. -/
theorem data_ne_of_string_ne {s : String} (h : s ≠ "") : s.data ≠ [] := by
  intro hd
  apply h
  cases s with
  | mk d => simp only [String.data] at hd; subst hd; rfl

/-- Every element of `cleanStep rooted stack seg` was already on the
stack, or is `..`, or is the (necessarily non-empty) pushed segment. -/
theorem mem_cleanStep (rooted : Bool) (stack : List (List Char)) (seg : List Char) :
    ∀ x ∈ cleanStep rooted stack seg, x ∈ stack ∨ x = ['.', '.'] ∨ (x = seg ∧ seg ≠ []) := by
  intro x hx
  unfold cleanStep at hx
  split at hx
  · left; exact hx
  next h1 =>
    split at hx
    next h2 =>
      subst h2
      split at hx
      · split at hx
        · simp at hx
        · simp at hx; right; left; exact hx
      next top rest =>
        split at hx
        · rcases List.mem_cons.mp hx with h4 | h4
          · right; left; exact h4
          · left; exact h4
        · left; exact List.mem_cons_of_mem top hx
    next h2 =>
      rcases List.mem_cons.mp hx with h4 | h4
      · right; right; exact ⟨h4, fun hc => h1 (Or.inl hc)⟩
      · left; exact h4

/-- `cleanStep` never pushes an empty segment. -/
theorem cleanStep_ne (rooted : Bool) (stack : List (List Char)) (seg : List Char)
    (h : ∀ x ∈ stack, x ≠ []) : ∀ x ∈ cleanStep rooted stack seg, x ≠ [] := by
  intro x hx
  rcases mem_cleanStep rooted stack seg x hx with h1 | h1 | h1
  · exact h x h1
  · subst h1; simp
  · rcases h1 with ⟨he, hne⟩; subst he; exact hne

/-- Folding `cleanStep` over any segment list keeps every stack element
non-empty. -/
theorem foldl_cleanStep_ne (rooted : Bool) :
    ∀ (segs : List (List Char)) (stack : List (List Char)),
      (∀ x ∈ stack, x ≠ []) → ∀ x ∈ segs.foldl (cleanStep rooted) stack, x ≠ [] := by
  intro segs
  induction segs with
  | nil => intro stack h; simpa using h
  | cons s rest ih =>
    intro stack h
    simp only [List.foldl_cons]
    exact ih _ (cleanStep_ne rooted stack s h)

/-- Rejoining a list of segments headed by a non-empty segment gives a
non-empty character list. -/
theorem joinSegs_ne (s : List Char) (rest : List (List Char)) (h : s ≠ []) :
    joinSegs (s :: rest) ≠ [] := by
  cases rest with
  | nil => simpa [joinSegs] using h
  | cons t ts =>
    cases s with
    | nil => exact absurd rfl h
    | cons c cs => simp [joinSegs]

/-- `filepath.Clean` never returns the empty string: the empty path
cleans to `.`, and otherwise a non-empty result is rebuilt. -/
theorem clean_ne_empty (s : String) : clean s ≠ "" := by
  unfold clean
  cases hd : s.data with
  | nil => decide
  | cons c cs =>
    dsimp only
    cases hs : ((splitSlash (c :: cs)).foldl (cleanStep (c = '/')) []).reverse with
    | nil =>
      dsimp only
      split <;> decide
    | cons s1 rest =>
      dsimp only
      have hmem : s1 ∈ (splitSlash (c :: cs)).foldl (cleanStep (c = '/')) [] := by
        rw [← List.mem_reverse, hs]
        exact List.mem_cons_self s1 rest
      have hne : s1 ≠ [] :=
        foldl_cleanStep_ne (c = '/') (splitSlash (c :: cs)) [] (by simp) s1 hmem
      split
      · apply string_ne_of_data; simp
      · exact string_ne_of_data (joinSegs_ne s1 rest hne)

/-- On a non-empty input, `fixPath` returns `some` and its value is
determined by the first character. -/
theorem fixPath_some_pair (s : String) (c : Char) (cs : List Char) (hd : s.data = c :: cs) :
    fixPath s = some (if c = '/' then s else if c = '.' then s else "./" ++ s) := by
  unfold fixPath
  rw [hd]
  dsimp only
  split_ifs <;> rfl

/-- `fixPathD` reads back the value `fixPath` succeeded with. -/
theorem fixPathD_eq {s r : String} (h : fixPath s = some r) : fixPathD s = r := by
  unfold fixPathD; rw [h]; rfl

/-- `fixPath` succeeds on every non-empty string. -/
theorem fixPath_some_of_ne {s : String} (h : s ≠ "") : fixPath s = some (fixPathD s) := by
  cases hd : s.data with
  | nil => exact absurd (data_ne_of_string_ne h) (by simp [hd])
  | cons c cs =>
    have h1 := fixPath_some_pair s c cs hd
    rw [h1, fixPathD_eq h1]

/-- `filepath.Join` with a non-empty name is non-empty (it is a `clean`
result). -/
theorem join_ne_empty (p n : String) (h : n ≠ "") : join p n ≠ "" := by
  unfold join
  by_cases h1 : p = ""
  · rw [if_pos h1, if_neg h]
    exact clean_ne_empty n
  · rw [if_neg h1]
    exact clean_ne_empty _

/-- C8: on every non-empty input (first character `c`), `fixPath`
leaves an absolute path (leading slash) unchanged, leaves a path that
already starts with a dot unchanged, and prefixes `./` to every other
relative path — and never panics on such input. -/
theorem fixPath_spec (s : String) (c : Char) (cs : List Char) (hd : s.data = c :: cs) :
    (c = '/' → fixPath s = some s) ∧
    (c ≠ '/' → c = '.' → fixPath s = some s) ∧
    (c ≠ '/' → c ≠ '.' → fixPath s = some ("./" ++ s)) := by
  have h1 := fixPath_some_pair s c cs hd
  refine ⟨?_, ?_, ?_⟩
  · intro h2; rw [h1, if_pos h2]
  · intro h2 h3; rw [h1, if_neg h2, if_pos h3]
  · intro h2 h3; rw [h1, if_neg h2, if_neg h3]

/-- C8, witness: the relative path `foo` gains a `./`. -/
theorem fixPath_spec_witness : fixPath ("foo") = some ("./" ++ "foo") :=
  (fixPath_spec ("foo") 'f' ['o', 'o'] rfl).2.2 (by decide) (by decide)

/-! ## Invariants of the built tree -/

/-- The node size of an `AllPos` tree is positive. -/
theorem AllPos_size {t : DirTree} (h : AllPos t) : 1 ≤ t.size := by
  cases h with
  | intro h1 h2 h3 => exact h1

/-- Sizes of `AllPos` subtrees sum to something non-negative. -/
theorem sumSizesD_nonneg {sds : List DirTree} (h : ∀ d ∈ sds, AllPos d) :
    0 ≤ sumSizesD sds := by
  induction sds with
  | nil => simp [sumSizesD]
  | cons d rest ih =>
    have h1 := AllPos_size (h d (List.mem_cons_self d rest))
    have h2 := ih (fun x hx => h x (List.mem_cons_of_mem d hx))
    simp only [sumSizesD]
    omega

/-- The properties the entry loop of `buildDirTree` guarantees for the
size, files and subdirectory lists it accumulates, given that every
recursive `New` on a member entry already guarantees them. -/
theorem buildEntries_props (p : String) (u bs : Int) :
    ∀ (es : List (EntryInfo × FSTree)),
      (∀ q ∈ es, ∀ ds t, New (join p q.1.name) u q.2 = (ds, some t) →
          SizeInv t ∧ (NamesOK q.2 → PathsOK t) ∧ (1 ≤ u → SizesOK q.2 → AllPos t)) →
      ∀ ds sz fls sds, New.buildEntries p u bs es = (ds, some (sz, fls, sds)) →
        (sz = sumSizesF fls + sumSizesD sds)
        ∧ (∀ d ∈ sds, SizeInv d)
        ∧ ((∀ q ∈ es, q.1.name ≠ "") → (∀ q ∈ es, NamesOK q.2) →
            (∀ fi ∈ fls, fi.path ≠ "") ∧ (∀ d ∈ sds, PathsOK d))
        ∧ (1 ≤ u → 2 ≤ bs → (∀ q ∈ es, ∀ n, q.1.size = some n → 0 ≤ n) →
            (∀ q ∈ es, SizesOK q.2) →
            (0 ≤ sz ∧ (∀ fi ∈ fls, 1 ≤ fi.size) ∧ (∀ d ∈ sds, AllPos d))) := by
  intro es
  induction es with
  | nil =>
    intro _ ds sz fls sds h
    simp only [New.buildEntries, Prod.mk.injEq, Option.some.injEq] at h
    obtain ⟨hds, hsz, hfls, hsds⟩ := h
    subst hsz; subst hfls; subst hsds
    refine ⟨by simp [sumSizesF, sumSizesD], by simp, fun _ _ => ⟨by simp, by simp⟩,
      fun _ _ _ _ => ⟨le_refl 0, by simp, by simp⟩⟩
  | cons q rest ih =>
    obtain ⟨e, sub⟩ := q
    obtain ⟨nm, edir, esz⟩ := e
    intro hyp ds sz fls sds h
    have hyprest : ∀ q ∈ rest, ∀ ds t, New (join p q.1.name) u q.2 = (ds, some t) →
        SizeInv t ∧ (NamesOK q.2 → PathsOK t) ∧ (1 ≤ u → SizesOK q.2 → AllPos t) :=
      fun q hq => hyp q (List.mem_cons_of_mem _ hq)
    cases esz with
    | none =>
      rcases hbe : New.buildEntries p u bs rest with ⟨ds2, r2⟩
      simp only [New.buildEntries, hbe, Prod.mk.injEq] at h
      obtain ⟨hds, hr⟩ := h
      rcases r2 with _ | ⟨⟨sz2, fls2, sds2⟩⟩
      · exact Option.noConfusion hr
      · simp only [Option.some.injEq, Prod.mk.injEq] at hr
        obtain ⟨hsz, hfls, hsds⟩ := hr
        subst hsz; subst hfls; subst hsds
        obtain ⟨c1, c2, c3, c4⟩ := ih hyprest ds2 sz2 fls2 sds2 hbe
        refine ⟨c1, c2, ?_, ?_⟩
        · intro hn1 hn2
          exact c3 (fun q hq => hn1 q (List.mem_cons_of_mem _ hq))
            (fun q hq => hn2 q (List.mem_cons_of_mem _ hq))
        · intro hu hbs hs1 hs2
          exact c4 hu hbs (fun q hq => hs1 q (List.mem_cons_of_mem _ hq))
            (fun q hq => hs2 q (List.mem_cons_of_mem _ hq))
    | some isz =>
      cases edir with
      | true =>
        rcases hn : New (join p nm) u sub with ⟨dsn, rn⟩
        rcases rn with _ | ⟨sdt⟩
        · simp only [New.buildEntries, hn, eq_self_iff_true, if_true,
            Prod.mk.injEq] at h
          exact Option.noConfusion h.2
        · rcases hbe : New.buildEntries p u bs rest with ⟨ds2, r2⟩
          rcases r2 with _ | ⟨⟨sz2, fls2, sds2⟩⟩
          · simp only [New.buildEntries, hn, hbe, eq_self_iff_true, if_true,
              Prod.mk.injEq] at h
            exact Option.noConfusion h.2
          · simp only [New.buildEntries, hn, hbe, eq_self_iff_true, if_true,
              Prod.mk.injEq, Option.some.injEq] at h
            obtain ⟨hds, hsz, hfls, hsds⟩ := h
            subst hsz; subst hfls; subst hsds
            obtain ⟨c1, c2, c3, c4⟩ := ih hyprest ds2 sz2 fls2 sds2 hbe
            have hchild := hyp (⟨nm, true, some isz⟩, sub) (List.mem_cons_self _ _) dsn sdt hn
            refine ⟨?_, ?_, ?_, ?_⟩
            · simp only [sumSizesD]; omega
            · intro d hd
              rcases List.mem_cons.mp hd with h4 | h4
              · subst h4; exact hchild.1
              · exact c2 d h4
            · intro hn1 hn2
              have hrest := c3 (fun q hq => hn1 q (List.mem_cons_of_mem _ hq))
                (fun q hq => hn2 q (List.mem_cons_of_mem _ hq))
              refine ⟨hrest.1, ?_⟩
              intro d hd
              rcases List.mem_cons.mp hd with h4 | h4
              · subst h4
                exact hchild.2.1 (hn2 (⟨nm, true, some isz⟩, sub) (List.mem_cons_self _ _))
              · exact hrest.2 d h4
            · intro hu hbs hs1 hs2
              have hrest := c4 hu hbs (fun q hq => hs1 q (List.mem_cons_of_mem _ hq))
                (fun q hq => hs2 q (List.mem_cons_of_mem _ hq))
              have hsdt : AllPos sdt :=
                hchild.2.2 hu (hs2 (⟨nm, true, some isz⟩, sub) (List.mem_cons_self _ _))
              have hsdtsize := AllPos_size hsdt
              obtain ⟨hr1, hr2, hr3⟩ := hrest
              refine ⟨by omega, hr2, ?_⟩
              intro d hd
              rcases List.mem_cons.mp hd with h4 | h4
              · subst h4; exact hsdt
              · exact hr3 d h4
      | false =>
        rcases hbe : New.buildEntries p u bs rest with ⟨ds2, r2⟩
        rcases r2 with _ | ⟨⟨sz2, fls2, sds2⟩⟩
        · simp only [New.buildEntries, hbe, Bool.false_eq_true, if_false,
            Prod.mk.injEq] at h
          exact Option.noConfusion h.2
        · simp only [New.buildEntries, hbe, Bool.false_eq_true, if_false,
            Prod.mk.injEq, Option.some.injEq] at h
          obtain ⟨hds, hsz, hfls, hsds⟩ := h
          subst hsz; subst hfls; subst hsds
          obtain ⟨c1, c2, c3, c4⟩ := ih hyprest ds2 sz2 fls2 sds2 hbe
          refine ⟨?_, c2, ?_, ?_⟩
          · simp only [sumSizesF]; omega
          · intro hn1 hn2
            have hrest := c3 (fun q hq => hn1 q (List.mem_cons_of_mem _ hq))
              (fun q hq => hn2 q (List.mem_cons_of_mem _ hq))
            refine ⟨?_, hrest.2⟩
            intro fi hfi
            rcases List.mem_cons.mp hfi with h4 | h4
            · subst h4
              exact join_ne_empty p nm (hn1 (⟨nm, false, some isz⟩, sub) (List.mem_cons_self _ _))
            · exact hrest.1 fi h4
          · intro hu hbs hs1 hs2
            have hrest := c4 hu hbs (fun q hq => hs1 q (List.mem_cons_of_mem _ hq))
              (fun q hq => hs2 q (List.mem_cons_of_mem _ hq))
            have hisz : 0 ≤ isz :=
              hs1 (⟨nm, false, some isz⟩, sub) (List.mem_cons_self _ _) isz rfl
            have hpos : 1 ≤ calcSize bs u isz :=
              calcSize_pos_aux bs u isz (by omega) hu hisz (by omega)
            refine ⟨by omega, ?_, hrest.2.2⟩
            intro fi hfi
            rcases List.mem_cons.mp hfi with h4 | h4
            · subst h4; exact hpos
            · exact hrest.2.1 fi h4

/-- Every tree `New` successfully builds satisfies the size invariant;
it has non-empty file paths when the filesystem reports non-empty entry
names; and all its sizes are positive when the filesystem reports
non-negative sizes and sane block sizes. -/
theorem New_props :
    ∀ (n : Nat) (fs : FSTree), sizeOf fs ≤ n →
      ∀ p u ds t, New p u fs = (ds, some t) →
        SizeInv t ∧ (NamesOK fs → PathsOK t) ∧ (1 ≤ u → SizesOK fs → AllPos t) := by
  intro n
  induction n with
  | zero =>
    intro fs hsz
    exfalso
    obtain ⟨statR, entriesR, bsizeR⟩ := fs
    simp only [FSTree.mk.sizeOf_spec] at hsz
    omega
  | succ n ih =>
    intro fs hsz p u ds t h
    obtain ⟨statR, entriesR, bsizeR⟩ := fs
    have hbs2 : 2 ≤ bsizeR.getD 4096 ∨ ∃ b, bsizeR = some b := by
      cases bsizeR with
      | none => left; decide
      | some b => right; exact ⟨b, rfl⟩
    cases statR with
    | none =>
      simp only [New, Prod.mk.injEq] at h
      exact absurd h.2 (by simp)
    | some st =>
      obtain ⟨sdir, ssize⟩ := st
      have hbsof : ∀ hsok : SizesOK (FSTree.mk (some ⟨sdir, ssize⟩) entriesR bsizeR),
          2 ≤ bsizeR.getD 4096 := by
        intro hsok
        cases hsok with
        | intro f1 f2 f3 f4 =>
          cases bsizeR with
          | none => decide
          | some b => exact f2 b rfl
      have hssof : ∀ hsok : SizesOK (FSTree.mk (some ⟨sdir, ssize⟩) entriesR bsizeR),
          0 ≤ ssize := by
        intro hsok
        cases hsok with
        | intro f1 f2 f3 f4 => exact f1 ⟨sdir, ssize⟩ rfl
      cases sdir with
      | false =>
        simp only [New, Bool.false_eq_true, if_false, Prod.mk.injEq, Option.some.injEq] at h
        obtain ⟨hds, ht⟩ := h
        subst ht
        refine ⟨?_, ?_, ?_⟩
        · exact SizeInv.intro ⟨ssize, by simp [sumSizesF, sumSizesD]⟩ (by simp)
        · intro _; exact PathsOK.intro (by simp) (by simp)
        · intro hu hsok
          refine AllPos.intro ?_ (by simp) (by simp)
          exact calcSize_pos_aux _ u ssize (by have := hbsof hsok; omega) hu (hssof hsok)
            (by have := hbsof hsok; omega)
      | true =>
        cases entriesR with
        | none =>
          simp only [New, if_true, Prod.mk.injEq, Option.some.injEq] at h
          obtain ⟨hds, ht⟩ := h
          subst ht
          refine ⟨?_, ?_, ?_⟩
          · exact SizeInv.intro ⟨ssize, by simp [sumSizesF, sumSizesD]⟩ (by simp)
          · intro _; exact PathsOK.intro (by simp) (by simp)
          · intro hu hsok
            refine AllPos.intro ?_ (by simp) (by simp)
            exact calcSize_pos_aux _ u ssize (by have := hbsof hsok; omega) hu (hssof hsok)
              (by have := hbsof hsok; omega)
        | some es =>
          rcases hbe : New.buildEntries p u (bsizeR.getD 4096) es with ⟨ds2, r2⟩
          rcases r2 with _ | ⟨⟨sz, fls, sds⟩⟩
          · simp only [New, if_true, hbe, Prod.mk.injEq] at h
            exact absurd h.2 (by simp)
          · simp only [New, if_true, hbe, Prod.mk.injEq, Option.some.injEq] at h
            obtain ⟨hds, ht⟩ := h
            subst ht
            have hprem : ∀ q ∈ es, ∀ ds t, New (join p q.1.name) u q.2 = (ds, some t) →
                SizeInv t ∧ (NamesOK q.2 → PathsOK t) ∧ (1 ≤ u → SizesOK q.2 → AllPos t) := by
              intro q hq ds' t' h'
              have h5 : sizeOf q < sizeOf es := List.sizeOf_lt_of_mem hq
              have h6 : sizeOf q.2 ≤ n := by
                obtain ⟨e1, s1⟩ := q
                simp at hsz h5 ⊢
                omega
              exact ih q.2 h6 (join p q.1.name) u ds' t' h'
            obtain ⟨c1, c2, c3, c4⟩ :=
              buildEntries_props p u (bsizeR.getD 4096) es hprem ds2 sz fls sds hbe
            refine ⟨?_, ?_, ?_⟩
            · refine SizeInv.intro ⟨ssize, ?_⟩ c2
              omega
            · intro hnames
              cases hnames with
              | intro f1 f2 =>
                have hp := c3 (f1 es rfl) (f2 es rfl)
                exact PathsOK.intro hp.1 hp.2
            · intro hu hsok
              have hbs := hbsof hsok
              have hss := hssof hsok
              have hent : (∀ q ∈ es, ∀ n, q.1.size = some n → 0 ≤ n) ∧
                  (∀ q ∈ es, SizesOK q.2) := by
                cases hsok with
                | intro f1 f2 f3 f4 => exact ⟨f3 es rfl, f4 es rfl⟩
              have hc := c4 hu hbs hent.1 hent.2
              have hs0 : 1 ≤ calcSize (bsizeR.getD 4096) u ssize :=
                calcSize_pos_aux _ u ssize (by omega) hu hss (by omega)
              refine AllPos.intro (by omega) hc.2.1 hc.2.2

/-- Convenience instantiation of `New_props` at the tree's own size. -/
theorem New_props_all (fs : FSTree) (p : String) (u : Int) (ds : List Diag) (t : DirTree)
    (h : New p u fs = (ds, some t)) :
    SizeInv t ∧ (NamesOK fs → PathsOK t) ∧ (1 ≤ u → SizesOK fs → AllPos t) :=
  New_props (sizeOf fs) fs (le_refl _) p u ds t h

/-! ## Claims about the accumulator -/

/-- C1 (code bug): when `os.Stat` fails on the requested path, the Go
code logs the error but then calls `dtInfo.Size()` on the nil
`FileInfo` interface — a nil-pointer dereference panic, modelled here as
the `none` result.  No `DirectoryNode` is produced, contradicting both
the claim and the code's own doc comment ("Any errors encountered
during the traversal ... will not cause the function to fail") and the
repository's "File does not exist" test case, whose path is used
here. -/
theorem New_panics_on_failed_stat :
    New ("./ak5i8fg74") 512 (FSTree.mk none none none) =
      ([Diag.statErr ("./ak5i8fg74")], none) := rfl

/-- C3: every tree returned by the accumulator satisfies the size
invariant at every node: `size` is the node's own allocation-rounded
size (a `calcSize` value under the node's block and unit sizes) plus
the sizes of its direct file entries plus the sizes of its direct
subdirectories.  The embedding is purely functional, so the tree is
never mutated after construction. -/
theorem New_size_invariant (p : String) (u : Int) (fs : FSTree) (ds : List Diag)
    (t : DirTree) (h : New p u fs = (ds, some t)) : SizeInv t :=
  (New_props_all fs p u ds t h).1

/-- C10, counterexample: at block size 1 and unit size 1 the converter
maps byte count 0 to `0`, which is not `≥ 1`. -/
theorem calcSize_pos_cex : ¬ (1 ≤ calcSize 1 1 0) := by decide

/-- C10 (amended): `calcSize` is positive for every non-negative byte
count and positive block and unit sizes except the degenerate triple
`blockSize = unitSize = 1`, byte count `0`; consequently, when the
filesystem reports only non-negative sizes and block sizes of at least
2 (as every real filesystem does), every node size and every file-entry
size of a built tree is strictly positive. -/
theorem calcSize_pos_and_tree_pos :
    (∀ k u b : Int, 1 ≤ k → 1 ≤ u → 0 ≤ b → ¬(k = 1 ∧ u = 1 ∧ b = 0) → 1 ≤ calcSize k u b) ∧
    (∀ (fs : FSTree) (p : String) (u : Int) (ds : List Diag) (t : DirTree),
      1 ≤ u → SizesOK fs → New p u fs = (ds, some t) → AllPos t) :=
  ⟨fun k u b hk hu hb hc => calcSize_pos_aux k u b hk hu hb hc,
   fun fs p u ds t hu hok h => (New_props_all fs p u ds t h).2.2 hu hok⟩

/-! ## The report formatter -/

/-- The file loop succeeds and produces one line per file, in stored
order, whenever every file path is non-empty. -/
theorem fileLines_eq (f : Int → String → String) :
    ∀ fls : List FileInfo, (∀ fi ∈ fls, fi.path ≠ "") →
      fileLines f fls = some (fls.map (fun fi => f fi.size (fixPathD fi.path))) := by
  intro fls
  induction fls with
  | nil => intro _; rfl
  | cons fi rest ih =>
    intro h
    have h1 : fixPath fi.path = some (fixPathD fi.path) :=
      fixPath_some_of_ne (h fi (List.mem_cons_self fi rest))
    simp only [fileLines, h1, ih (fun x hx => h x (List.mem_cons_of_mem fi hx)),
      List.map_cons]

/-- The accumulated total output of a list of subtrees is the
concatenation of each subtree's total output, in stored order. -/
theorem printTotalList_eq_join (f : Int → String → String) (cf sm : Bool) :
    ∀ sds : List DirTree,
      printTotal.printTotalList f cf sm sds = (sds.map (printTotal f cf sm)).flatten := by
  intro sds
  induction sds with
  | nil => rfl
  | cons d rest ih =>
    simp only [printTotal.printTotalList, ih, List.map_cons, List.flatten_cons]

/-- On every tree with non-empty file paths, `printDirTree` does not
panic and agrees with its total companion `printTotal`. -/
theorem printDirTree_eq_total :
    ∀ (n : Nat) (t : DirTree), sizeOf t ≤ n → PathsOK t →
      ∀ f cf sm, printDirTree f cf sm t = some (printTotal f cf sm t) := by
  intro n
  induction n with
  | zero =>
    intro t hsz
    exfalso
    obtain ⟨p, s, fls, sds, u, bs⟩ := t
    simp only [DirTree.mk.sizeOf_spec] at hsz
    omega
  | succ n ih =>
    intro t hsz hok f cf sm
    obtain ⟨p, s, fls, sds, u, bs⟩ := t
    cases hok with
    | intro hfp hsp =>
      have hsubsz : ∀ d ∈ sds, sizeOf d ≤ n := by
        intro d hd
        have h5 := List.sizeOf_lt_of_mem hd
        simp only [DirTree.mk.sizeOf_spec] at hsz
        omega
      have hside : (if cf then fileLines f fls else some []) =
          some (if cf then fls.map (fun fi => f fi.size (fixPathD fi.path)) else []) := by
        cases cf
        · rfl
        · simp only [if_true]
          exact fileLines_eq f fls hfp
      have hlist : ∀ sds2 : List DirTree, (∀ d ∈ sds2, PathsOK d) →
          (∀ d ∈ sds2, sizeOf d ≤ n) →
          printDirTree.printList f cf sm sds2 =
            some (printTotal.printTotalList f cf sm sds2) := by
        intro sds2
        induction sds2 with
        | nil => intro _ _; rfl
        | cons d rest ih2 =>
          intro hok2 hsz2
          have h1 := ih d (hsz2 d (List.mem_cons_self d rest))
            (hok2 d (List.mem_cons_self d rest)) f cf sm
          simp only [printDirTree.printList, h1,
            ih2 (fun x hx => hok2 x (List.mem_cons_of_mem d hx))
                (fun x hx => hsz2 x (List.mem_cons_of_mem d hx)),
            printTotal.printTotalList]
      have hmid : (if sm then some [] else printDirTree.printList f cf sm sds) =
          some (if sm then [] else printTotal.printTotalList f cf sm sds) := by
        cases sm
        · simp only [Bool.false_eq_true, if_false]
          exact hlist sds hsp hsubsz
        · rfl
      have hnode : fixPath (clean p) = some (fixPathD (clean p)) :=
        fixPath_some_of_ne (clean_ne_empty p)
      simp only [printDirTree, printTotal, hside, hmid, hnode]

/-! ## Claims about the formatter -/

/-- C6: with `listAllFiles` true and `summariseOnly` false, the output
of a node is exactly: one line per own `FileEntry` in stored order,
then the concatenated full outputs of the child nodes in stored order,
then the single summary line for the node itself — and on every tree
with non-empty file paths each child's contribution is its own full
formatted output. -/
theorem printDirTree_listAll_order (f : Int → String → String) (t : DirTree)
    (h : PathsOK t) :
    printDirTree f true false t =
      some ((t.files.map (fun fi => f fi.size (fixPathD fi.path)))
        ++ (((t.subdirs.map (printTotal f true false)).flatten)
        ++ [f t.size (fixPathD (clean t.path))]))
    ∧ ∀ d, PathsOK d → printDirTree f true false d = some (printTotal f true false d) := by
  constructor
  · have h1 := printDirTree_eq_total (sizeOf t) t (le_refl _) h f true false
    rw [h1]
    obtain ⟨p, s, fls, sds, u, bs⟩ := t
    simp only [printTotal, DirTree.files, DirTree.subdirs, DirTree.size, DirTree.path,
      printTotalList_eq_join, if_true, Bool.false_eq_true, if_false]
  · intro d hd
    exact printDirTree_eq_total (sizeOf d) d (le_refl _) hd f true false

/-- C6, witness: a directory with one file and one empty subdirectory
prints its file line, then the subdirectory's line, then its own. -/
theorem printDirTree_listAll_order_witness :
    printDirTree (fun _ s => s) true false
      (DirTree.mk ("d") 24 [⟨"d/f", 8⟩] [DirTree.mk ("d/s") 8 [] [] 512 4096] 512 4096) =
        some (["./d/f"] ++ (["./d/s"] ++ ["./d"])) := by
  rw [(printDirTree_listAll_order (fun _ s => s)
    (DirTree.mk ("d") 24 [⟨"d/f", 8⟩] [DirTree.mk ("d/s") 8 [] [] 512 4096] 512 4096)
    (PathsOK.intro
      (by intro fi hfi; rw [List.mem_singleton] at hfi; subst hfi; decide)
      (by intro d hd; rw [List.mem_singleton] at hd; subst hd
          exact PathsOK.intro (by simp) (by simp)))).1]
  rfl

/-- C7: with `summariseOnly` true (and `listAllFiles` false, as the
caller guarantees), the formatter emits exactly one line — the summary
line of the requested root — for every tree of any depth; it cannot
even panic, because the node path goes through `filepath.Clean`, which
never returns the empty string. -/
theorem printDirTree_summarise_single (f : Int → String → String) (t : DirTree) :
    printDirTree f false true t = some [f t.size (fixPathD (clean t.path))] := by
  obtain ⟨p, s, fls, sds, u, bs⟩ := t
  have hnode : fixPath (clean p) = some (fixPathD (clean p)) :=
    fixPath_some_of_ne (clean_ne_empty p)
  simp only [printDirTree, DirTree.size, DirTree.path, hnode, Bool.false_eq_true, if_false,
    if_true, List.nil_append]

/-- C9: `fixPath` does panic on the empty string (it indexes the first
byte without a length check), but the panic is unreachable from
`PrintDirTree` on any tree the accumulator builds over a filesystem
with non-empty entry names: node lines go through `filepath.Clean`,
which never returns an empty string, and file paths are
`filepath.Join` results with a non-empty last component. -/
theorem fixPath_empty_unreachable :
    fixPath ("") = none ∧
    ∀ (fs : FSTree) (p : String) (u : Int) (ds : List Diag) (t : DirTree)
      (f : Int → String → String) (cf sm : Bool),
      NamesOK fs → New p u fs = (ds, some t) →
      ∃ out, printDirTree f cf sm t = some out := by
  refine ⟨rfl, ?_⟩
  intro fs p u ds t f cf sm hn h
  have hp := (New_props_all fs p u ds t h).2.1 hn
  exact ⟨printTotal f cf sm t, printDirTree_eq_total (sizeOf t) t (le_refl _) hp f cf sm⟩

/-- C3, witness: the tree built from the `testdata` fixture satisfies
the size invariant (16 = 8 own allocation + 8 file + 0 subdirs). -/
theorem New_size_invariant_witness : SizeInv treeExample :=
  New_size_invariant ("./testdata") 512 fsExample [] treeExample rfl

/-- C9, witness: formatting the tree built from the `testdata` fixture
never reaches the `fixPath` panic. -/
theorem fixPath_empty_unreachable_witness :
    ∃ out, printDirTree (fun _ s => s) true false treeExample = some out :=
  fixPath_empty_unreachable.2 fsExample ("./testdata") 512 [] treeExample
    (fun _ s => s) true false
    (NamesOK.intro
      (by
        intro es hes q hq
        rw [Option.some.injEq] at hes
        subst hes
        rw [List.mem_singleton] at hq
        subst hq
        decide)
      (by
        intro es hes q hq
        rw [Option.some.injEq] at hes
        subst hes
        rw [List.mem_singleton] at hq
        subst hq
        exact NamesOK.intro (fun es h => Option.noConfusion h)
          (fun es h => Option.noConfusion h)))
    rfl

/-- C10, witness: a positive conversion and an all-positive tree. -/
theorem calcSize_pos_and_tree_pos_witness :
    1 ≤ calcSize 4096 512 100 ∧ AllPos treeExample :=
  ⟨calcSize_pos_and_tree_pos.1 4096 512 100 (by decide) (by decide) (by decide) (by decide),
   calcSize_pos_and_tree_pos.2 fsExample ("./testdata") 512 [] treeExample (by decide)
     (SizesOK.intro
       (by intro st hst; rw [Option.some.injEq] at hst; subst hst; decide)
       (by intro b hb; rw [Option.some.injEq] at hb; subst hb; decide)
       (by
         intro es hes q hq n hn
         rw [Option.some.injEq] at hes
         subst hes
         rw [List.mem_singleton] at hq
         subst hq
         rw [Option.some.injEq] at hn
         subst hn
         decide)
       (by
         intro es hes q hq
         rw [Option.some.injEq] at hes
         subst hes
         rw [List.mem_singleton] at hq
         subst hq
         exact SizesOK.intro (fun st h => Option.noConfusion h)
           (fun b h => Option.noConfusion h)
           (fun es h => Option.noConfusion h)
           (fun es h => Option.noConfusion h)))
     rfl⟩

end GoDu
